import Mathlib

/-!
Verification of the autofactory resolvers.

The repository provides two mixin base classes:

* `ModelBase` (src/modelBase.py): `findModel` searches the inheritance tree
  below a class, depth first over `__subclasses__()` in declaration order,
  for a class whose `modelStrings` list contains a sought string.
* `VersionedBase` (src/versionedBase.py): `newFromVersion` walks a strictly
  linear chain of subclasses and instantiates the class whose
  `versionString` equals the sought version; `findVersion` walks first
  children only and returns the class; `findPreviousVersion` climbs
  `__base__` links upwards.

We embed a class hierarchy as a finitely branching tree.  A node carries the
attribute relevant to the resolver (`versionString : Option String`, Python's
`None` being `none`, or `modelStrings : List String`) and its ordered
`__subclasses__()` list.  Python's `NotImplementedError` and `TypeError`
become the two constructors of `ResolveError`; instantiation `cls(*args)`
becomes the record `VInstance` pairing the originating node with the
supplied constructor arguments.
-/

/-- Errors raised by the resolvers: `notFound` stands for Python's
`NotImplementedError` (the spec's `NotFound`), `ambiguousHierarchy` for the
`TypeError` raised on a branched chain (the spec's `AmbiguousHierarchy`). -/
inductive ResolveError : Type where
  | notFound : ResolveError
  | ambiguousHierarchy : ResolveError
deriving DecidableEq

/-- A class in a `VersionedBase` hierarchy: its `versionString` class
attribute (Python `None` is `none`) and its `__subclasses__()` list in
declaration order. -/
inductive VNode : Type where
  | mk (versionString : Option String) (children : List VNode) : VNode

/-- The `versionString` class attribute. -/
def VNode.versionString : VNode → Option String
  | .mk v _ => v

/-- The `__subclasses__()` list, in declaration order. -/
def VNode.children : VNode → List VNode
  | .mk _ c => c

/-- The result of `cls(*args, **kwargs)`: which class's constructor was
invoked and with which arguments. -/
structure VInstance (α : Type) : Type where
  ofNode : VNode
  args : α

/-- The `while scan:` loop of `VersionedBase.newFromVersion`: check the
current class for a version match, descend when it has exactly one subclass,
and otherwise fall back (`returnDefault` rebuilds the original `cls`,
`returnLast` builds the current class) or raise `NotImplementedError`. -/
def scanChain {α : Type} (cls : VNode) (args : α) (version : Option String)
    (returnDefault returnLast : Bool) : VNode → Except ResolveError (VInstance α)
  | VNode.mk vs ch =>
    if vs = version then Except.ok ⟨VNode.mk vs ch, args⟩
    else
      match ch with
      | [sub] => scanChain cls args version returnDefault returnLast sub
      | _ =>
        if returnDefault then Except.ok ⟨cls, args⟩
        else if returnLast then Except.ok ⟨VNode.mk vs ch, args⟩
        else Except.error ResolveError.notFound

/-- `VersionedBase.newFromVersion`: if `cls.versionString == version` build
`cls`; else with exactly one subclass run the scan loop from it, with no
subclasses apply the fallbacks, and with two or more subclasses raise
`TypeError` (ambiguous hierarchy). -/
def newFromVersion {α : Type} (cls : VNode) (args : α) (version : Option String)
    (returnDefault returnLast : Bool) : Except ResolveError (VInstance α) :=
  if cls.versionString = version then Except.ok ⟨cls, args⟩
  else
    match cls.children with
    | [sub] => scanChain cls args version returnDefault returnLast sub
    | [] =>
      if returnDefault then Except.ok ⟨cls, args⟩
      else if returnLast then Except.ok ⟨cls, args⟩
      else Except.error ResolveError.notFound
    | _ => Except.error ResolveError.ambiguousHierarchy

/-- `VersionedBase.newFromVersion` as called with the keyword arguments
omitted: in the source the signature is
`newFromVersion(cls, *args, version=None, returnDefault=False,
returnLast=False, **kwargs)`, so omitting them supplies `None`, `False`,
`False`. -/
def newFromVersionDefaults {α : Type} (cls : VNode) (args : α) :
    Except ResolveError (VInstance α) :=
  newFromVersion cls args none false false

/-- The inner `traverse` of `VersionedBase.findVersion`: match the current
class, else recurse into `__subclasses__()[0]` when any subclass exists;
at a class with no subclasses return it when `returnLatest` is set, else
`None`. -/
def traverseVersion (returnLatest : Bool) (soughtVersion : Option String) :
    VNode → Option VNode
  | VNode.mk vs ch =>
    if soughtVersion = vs then some (VNode.mk vs ch)
    else
      match ch with
      | sub :: _ => traverseVersion returnLatest soughtVersion sub
      | [] => if returnLatest then some (VNode.mk vs ch) else none

/-- `VersionedBase.findVersion`: check `cls` itself, then when `cls` has
subclasses run `traverse` (which rechecks `cls` and follows first children
only); a missing result falls back to `cls` under `returnBase`; with no
subclasses, `returnBase` or `returnLatest` returns `cls`; otherwise raise
`NotImplementedError`. -/
def findVersion (cls : VNode) (version : Option String)
    (returnBase returnLatest : Bool) : Except ResolveError VNode :=
  if version = cls.versionString then Except.ok cls
  else
    match cls.children with
    | _ :: _ =>
      match traverseVersion returnLatest version cls with
      | some possible => Except.ok possible
      | none =>
        if returnBase then Except.ok cls
        else Except.error ResolveError.notFound
    | [] =>
      if returnBase || returnLatest then Except.ok cls
      else Except.error ResolveError.notFound

/-- The maximal path from a node that repeatedly steps to
`__subclasses__()[0]`: the nodes the first-child-only walks visit. -/
def firstChildPath : VNode → List VNode
  | VNode.mk vs [] => [VNode.mk vs []]
  | VNode.mk vs (sub :: rest) => VNode.mk vs (sub :: rest) :: firstChildPath sub

/-- The last node of `firstChildPath`: where the first-child-only walk
stops. -/
def pathEnd : VNode → VNode
  | VNode.mk vs [] => VNode.mk vs []
  | VNode.mk _ (sub :: _) => pathEnd sub

/-- A hierarchy is a chain when every node has at most one subclass. -/
def isChain : VNode → Bool
  | VNode.mk _ [] => true
  | VNode.mk _ [sub] => isChain sub
  | VNode.mk _ (_ :: _ :: _) => false

mutual

/-- All nodes of the subtree rooted at a node, in pre-order. -/
def subtreeNodes : VNode → List VNode
  | VNode.mk vs ch => VNode.mk vs ch :: subtreeNodesList ch

/-- All nodes of the subtrees rooted at the listed nodes, in pre-order. -/
def subtreeNodesList : List VNode → List VNode
  | [] => []
  | sub :: rest => subtreeNodes sub ++ subtreeNodesList rest

end

/-- A class in a `VersionedBase` lineage as seen by `findPreviousVersion`:
its name and its `versionString` attribute. -/
structure VClass : Type where
  name : String
  versionString : Option String
deriving DecidableEq

/-- The inner `climb` of `VersionedBase.findPreviousVersion`, applied to the
list of ancestors of the calling class ordered from its immediate `__base__`
upwards, ending at the topmost class that still has a `versionString`
attribute (the `VersionedBase` mixin itself, whose attribute is `None`).
Exhausting the list is Python's `hasattr` check failing at `object`:
`climb` falls off the top and implicitly returns `None`. -/
def climb (soughtVersion : String) : List VClass → Option VClass
  | [] => none
  | base :: rest =>
    if base.versionString = some soughtVersion then some base
    else climb soughtVersion rest

/-- `VersionedBase.findPreviousVersion`: when the calling class's `__base__`
still has a `versionString` attribute (the ancestor list is nonempty), climb
from it; otherwise implicitly return `None`. -/
def findPreviousVersion (ancestors : List VClass) (previous : String) :
    Option VClass :=
  match ancestors with
  | [] => none
  | base :: rest => climb previous (base :: rest)

/-- A class in a `ModelBase` hierarchy: its `modelStrings` list and its
`__subclasses__()` list in declaration order. -/
inductive MNode : Type where
  | mk (modelStrings : List String) (children : List MNode) : MNode

/-- The `modelStrings` class attribute. -/
def MNode.modelStrings : MNode → List String
  | .mk s _ => s

/-- The `__subclasses__()` list, in declaration order. -/
def MNode.children : MNode → List MNode
  | .mk _ c => c

mutual

/-- The inner `traverse` of `ModelBase.findModel`: match the current class's
`modelStrings`, else try each subclass in declaration order, returning the
first truthy result. -/
def traverseModel (soughtModel : String) : MNode → Option MNode
  | MNode.mk ls ch =>
    if soughtModel ∈ ls then some (MNode.mk ls ch)
    else traverseModelList soughtModel ch

/-- The `for sub in searchMe.__subclasses__():` loop of `traverse`. -/
def traverseModelList (soughtModel : String) : List MNode → Option MNode
  | [] => none
  | sub :: rest =>
    match traverseModel soughtModel sub with
    | some possible => some possible
    | none => traverseModelList soughtModel rest

end

/-- `ModelBase.findModel`: check `cls` itself, then when `cls` has
subclasses run `traverse` (which rechecks `cls`); a missing result falls
back to `cls` under `returnBase` only; with no subclasses, `returnBase` or
`returnLatest` returns `cls`; otherwise raise `NotImplementedError`. -/
def findModel (cls : MNode) (observedModel : String)
    (returnBase returnLatest : Bool) : Except ResolveError MNode :=
  if observedModel ∈ cls.modelStrings then Except.ok cls
  else
    match cls.children with
    | _ :: _ =>
      match traverseModel observedModel cls with
      | some possible => Except.ok possible
      | none =>
        if returnBase then Except.ok cls
        else Except.error ResolveError.notFound
    | [] =>
      if returnBase || returnLatest then Except.ok cls
      else Except.error ResolveError.notFound

mutual

/-- Pre-order listing of the subtree rooted at a `ModelBase` class: the
order in which `traverse` visits classes. -/
def preorder : MNode → List MNode
  | MNode.mk ls ch => MNode.mk ls ch :: preorderList ch

/-- Pre-order listing of the subtrees of the listed classes. -/
def preorderList : List MNode → List MNode
  | [] => []
  | sub :: rest => preorder sub ++ preorderList rest

end

/-- The first node of a list whose `modelStrings` contains the sought
string.  The specification side of the first-match contract: `findModel`
is compared against `firstLabelMatch` over `preorder`. -/
def firstLabelMatch (soughtModel : String) : List MNode → Option MNode
  | [] => none
  | n :: rest =>
    if soughtModel ∈ n.modelStrings then some n
    else firstLabelMatch soughtModel rest

/-- The `Ver3` leaf of the linear test lineage (`versionString` "3.0"). -/
def verC : VNode := VNode.mk (some "3.0") []

/-- The `Ver2` middle class of the linear test lineage. -/
def verB : VNode := VNode.mk (some "2.0") [verC]

/-- The `Ver1` base of the linear test lineage `Ver1 → Ver2 → Ver3`. -/
def verA : VNode := VNode.mk (some "1.0") [verB]

/-- A leaf reachable only as a second child. -/
def hiddenMatch : VNode := VNode.mk (some "2.0") []

/-- The first child of `branchedRoot`, carrying a non-matching version. -/
def firstArm : VNode := VNode.mk (some "3.0") []

/-- A root whose version "2.0" descendant sits behind the second child. -/
def branchedRoot : VNode := VNode.mk (some "1.0") [firstArm, hiddenMatch]

/-- First leaf under the fork. -/
def armX : VNode := VNode.mk (some "3.0") []

/-- Second leaf under the fork. -/
def armY : VNode := VNode.mk (some "4.0") []

/-- A node with two children, sitting below `forkRoot`. -/
def forkNode : VNode := VNode.mk (some "2.0") [armX, armY]

/-- A root with a single child that itself has two children. -/
def forkRoot : VNode := VNode.mk (some "1.0") [forkNode]

/-- A class that never set a `versionString`, so it carries the inherited
`None`. -/
def unsetNode : VNode := VNode.mk none []

/-- The `Ver1` class as seen by the ancestor climb. -/
def clsVer1 : VClass := ⟨"Ver1", some "1.0"⟩

/-- The `Ver2` class as seen by the ancestor climb. -/
def clsVer2 : VClass := ⟨"Ver2", some "2.0"⟩

/-- The `VersionedBase` mixin itself: `versionString = None`. -/
def clsVersionedBase : VClass := ⟨"VersionedBase", none⟩

/-- The ancestors of `Ver3` in the lineage `Ver1 → Ver2 → Ver3`, from its
immediate base upwards. -/
def ver3Ancestors : List VClass := [clsVer2, clsVer1, clsVersionedBase]

/-- Leaf model class carrying label "x", declared first. -/
def leafM1 : MNode := MNode.mk ["x"] []

/-- Leaf model class carrying label "x", declared second. -/
def leafM2 : MNode := MNode.mk ["x"] []

/-- Root model class with children `[leafM1, leafM2]`. -/
def rootM : MNode := MNode.mk ["M"] [leafM1, leafM2]

/-- Leaf model class with label "B". -/
def leafB : MNode := MNode.mk ["B"] []

/-- Root model class with the single child `leafB`. -/
def rootA : MNode := MNode.mk ["A"] [leafB]

/-- A node is the first entry of its own first-child path. -/
theorem self_mem_firstChildPath : ∀ n : VNode, n ∈ firstChildPath n
  | VNode.mk vs [] => by simp [firstChildPath]
  | VNode.mk vs (sub :: rest) => by simp [firstChildPath]

/-- The stopping node of the first-child walk lies on the walked path. -/
theorem pathEnd_mem_firstChildPath : ∀ n : VNode, pathEnd n ∈ firstChildPath n
  | VNode.mk vs [] => by simp [pathEnd, firstChildPath]
  | VNode.mk _ (sub :: rest) => by
      simp only [pathEnd, firstChildPath]
      exact List.mem_cons_of_mem _ (pathEnd_mem_firstChildPath sub)

/-- When no node on the first-child path matches, `traverse` of `findVersion`
returns the end of that path under `returnLatest` and `None` otherwise. -/
theorem traverseVersion_no_match (rl : Bool) (v : Option String) :
    ∀ n : VNode, (∀ m ∈ firstChildPath n, v ≠ m.versionString) →
      traverseVersion rl v n = if rl then some (pathEnd n) else none
  | VNode.mk vs [], h => by
      have hne : v ≠ vs := by
        simpa [VNode.versionString] using
          h (VNode.mk vs []) (self_mem_firstChildPath _)
      simp [traverseVersion, pathEnd, hne]
  | VNode.mk vs (sub :: rest), h => by
      have hne : v ≠ vs := by
        simpa [VNode.versionString] using
          h (VNode.mk vs (sub :: rest)) (self_mem_firstChildPath _)
      have ih := traverseVersion_no_match rl v sub (fun m hm => h m (by
        simp only [firstChildPath]
        exact List.mem_cons_of_mem _ hm))
      simp [traverseVersion, pathEnd, hne, ih]

/-- When the lineage below the scanned node is a chain and no node on it
matches, the scan loop of `newFromVersion` resolves purely by the fallback
flags: `returnDefault` rebuilds `cls`, `returnLast` builds the end of the
chain, and otherwise it raises `NotImplementedError`. -/
theorem scanChain_no_match {α : Type} (cls : VNode) (args : α) (v : Option String)
    (rd rl : Bool) :
    ∀ c : VNode, isChain c = true →
      (∀ m ∈ firstChildPath c, m.versionString ≠ v) →
      scanChain cls args v rd rl c =
        if rd then Except.ok ⟨cls, args⟩
        else if rl then Except.ok ⟨pathEnd c, args⟩
        else Except.error ResolveError.notFound
  | VNode.mk vs [], _, h => by
      have hne : vs ≠ v := by
        simpa [VNode.versionString] using
          h (VNode.mk vs []) (self_mem_firstChildPath _)
      simp [scanChain, pathEnd, hne]
  | VNode.mk vs [sub], hch, h => by
      have hne : vs ≠ v := by
        simpa [VNode.versionString] using
          h (VNode.mk vs [sub]) (self_mem_firstChildPath _)
      have hch' : isChain sub = true := by simpa [isChain] using hch
      have ih := scanChain_no_match cls args v rd rl sub hch' (fun m hm => h m (by
        simp only [firstChildPath]
        exact List.mem_cons_of_mem _ hm))
      simp [scanChain, pathEnd, hne, ih]
  | VNode.mk vs (s1 :: s2 :: rest), hch, _ => by
      simp [isChain] at hch

/-- The scan loop of `newFromVersion` never raises the ambiguity error. -/
theorem scanChain_ne_ambiguous {α : Type} (cls : VNode) (args : α)
    (v : Option String) (rd rl : Bool) :
    ∀ c : VNode,
      scanChain cls args v rd rl c ≠ Except.error ResolveError.ambiguousHierarchy
  | VNode.mk vs [] => by
      simp only [scanChain]
      split_ifs <;> simp
  | VNode.mk vs [sub] => by
      simp only [scanChain]
      split_ifs with hv
      · simp
      · exact scanChain_ne_ambiguous cls args v rd rl sub
  | VNode.mk vs (s1 :: s2 :: rest) => by
      simp only [scanChain]
      split_ifs <;> simp

/-- A node is the first entry of its own pre-order listing. -/
theorem self_mem_preorder : ∀ n : MNode, n ∈ preorder n
  | MNode.mk ls ch => by simp [preorder]

/-- Scanning a concatenation for the first label match scans the pieces in
order. -/
theorem firstLabelMatch_append (s : String) :
    ∀ a b : List MNode, firstLabelMatch s (a ++ b) =
      match firstLabelMatch s a with
      | some m => some m
      | none => firstLabelMatch s b
  | [], b => by simp [firstLabelMatch]
  | n :: rest, b => by
      by_cases hmem : s ∈ n.modelStrings
      · simp [firstLabelMatch, hmem]
      · simp [firstLabelMatch, hmem, firstLabelMatch_append s rest b]

mutual

/-- The inner `traverse` of `findModel` returns exactly the first pre-order
node whose `modelStrings` contains the sought string. -/
theorem traverseModel_eq_firstLabelMatch (s : String) :
    ∀ n : MNode, traverseModel s n = firstLabelMatch s (preorder n)
  | MNode.mk ls ch => by
      by_cases hmem : s ∈ ls
      · simp [traverseModel, preorder, firstLabelMatch, MNode.modelStrings, hmem]
      · simp only [traverseModel, preorder, firstLabelMatch, MNode.modelStrings]
        simp only [hmem, if_neg, ite_false]
        exact traverseModelList_eq_firstLabelMatch s ch

/-- The subclass loop of `traverse` scans the concatenated pre-orders. -/
theorem traverseModelList_eq_firstLabelMatch (s : String) :
    ∀ l : List MNode, traverseModelList s l = firstLabelMatch s (preorderList l)
  | [] => by simp [traverseModelList, preorderList, firstLabelMatch]
  | sub :: rest => by
      have ha := firstLabelMatch_append s (preorder sub) (preorderList rest)
      have h1 := traverseModel_eq_firstLabelMatch s sub
      have h2 := traverseModelList_eq_firstLabelMatch s rest
      simp only [traverseModelList, preorderList, ha, h1, h2]

end

/-- Absence of a first label match is absence of any match. -/
theorem firstLabelMatch_eq_none (s : String) :
    ∀ l : List MNode, firstLabelMatch s l = none ↔ ∀ m ∈ l, s ∉ m.modelStrings
  | [] => by simp [firstLabelMatch]
  | n :: rest => by
      by_cases hmem : s ∈ n.modelStrings
      · simp [firstLabelMatch, hmem]
      · simp [firstLabelMatch, hmem, firstLabelMatch_eq_none s rest]

/-- A first label match lies in the scanned list and carries the label. -/
theorem firstLabelMatch_eq_some (s : String) :
    ∀ (l : List MNode) (m : MNode), firstLabelMatch s l = some m →
      m ∈ l ∧ s ∈ m.modelStrings
  | [], m, h => by simp [firstLabelMatch] at h
  | n :: rest, m, h => by
      by_cases hmem : s ∈ n.modelStrings
      · simp only [firstLabelMatch, hmem, ite_true, Option.some.injEq] at h
        subst h
        exact ⟨List.mem_cons_self _ _, hmem⟩
      · simp only [firstLabelMatch, hmem, ite_false] at h
        obtain ⟨h1, h2⟩ := firstLabelMatch_eq_some s rest m h
        exact ⟨List.mem_cons_of_mem _ h1, h2⟩

/-- C3: for every hierarchy and label, `findModel` returns a node whose
`modelStrings` contains the label exactly when such a node exists in the
subtree rooted at `start`, the returned node is the first match in pre-order
depth-first traversal over declaration-ordered children, and in the concrete
hierarchy `rootM` with children `[leafM1, leafM2]` both labeled "x",
`findModel rootM "x"` returns `leafM1`. -/
theorem findModel_preorder_first (start : MNode) (L : String) (rb rl : Bool) :
    ((∃ n, findModel start L rb rl = Except.ok n ∧ L ∈ n.modelStrings)
        ↔ ∃ m ∈ preorder start, L ∈ m.modelStrings)
    ∧ (∀ m : MNode, firstLabelMatch L (preorder start) = some m →
        findModel start L rb rl = Except.ok m)
    ∧ findModel rootM "x" false false = Except.ok leafM1 := by
  obtain ⟨ls, ch⟩ := start
  have hfirst : ∀ m : MNode, firstLabelMatch L (preorder (MNode.mk ls ch)) = some m →
      findModel (MNode.mk ls ch) L rb rl = Except.ok m := by
    intro m hm
    by_cases hmem : L ∈ ls
    · simp only [preorder, firstLabelMatch, MNode.modelStrings, hmem, ite_true,
        Option.some.injEq] at hm
      subst hm
      simp [findModel, MNode.modelStrings, hmem]
    · simp only [preorder, firstLabelMatch, MNode.modelStrings, hmem, ite_false] at hm
      cases ch with
      | nil => simp [preorderList, firstLabelMatch] at hm
      | cons sub rest =>
          have htrav : traverseModel L (MNode.mk ls (sub :: rest)) = some m := by
            rw [traverseModel_eq_firstLabelMatch]
            simp only [preorder, firstLabelMatch, MNode.modelStrings, hmem, ite_false]
            exact hm
          simp [findModel, MNode.modelStrings, MNode.children, hmem, htrav]
  refine ⟨?_, hfirst, rfl⟩
  constructor
  · rintro ⟨n, hok, hlab⟩
    by_cases hmem : L ∈ ls
    · simp only [findModel, MNode.modelStrings, hmem, ite_true, Except.ok.injEq] at hok
      subst hok
      exact ⟨_, self_mem_preorder _, hlab⟩
    · cases ch with
      | nil =>
          simp only [findModel, MNode.modelStrings, MNode.children, hmem, ite_false] at hok
          rcases hbr : (rb || rl) with _ | _
          · simp [hbr] at hok
          · simp only [hbr, ite_true, Except.ok.injEq] at hok
            subst hok
            exact absurd hlab hmem
      | cons sub rest =>
          rcases htm : traverseModel L (MNode.mk ls (sub :: rest)) with _ | p
          · simp only [findModel, MNode.modelStrings, MNode.children, hmem, ite_false,
              htm] at hok
            rcases hb : rb with _ | _
            · simp [hb] at hok
            · simp only [hb, ite_true, Except.ok.injEq] at hok
              subst hok
              exact absurd hlab hmem
          · simp only [findModel, MNode.modelStrings, MNode.children, hmem, ite_false,
              htm, Except.ok.injEq] at hok
            subst hok
            rw [traverseModel_eq_firstLabelMatch] at htm
            obtain ⟨h1, h2⟩ := firstLabelMatch_eq_some L _ _ htm
            exact ⟨_, h1, h2⟩
  · rintro ⟨m, hmem, hlab⟩
    have hne : firstLabelMatch L (preorder (MNode.mk ls ch)) ≠ none := fun hnone =>
      ((firstLabelMatch_eq_none L _).mp hnone m hmem) hlab
    obtain ⟨m', hm'⟩ := Option.ne_none_iff_exists'.mp hne
    exact ⟨m', hfirst m' hm', (firstLabelMatch_eq_some L _ m' hm').2⟩

/-- C3 witness: in the two-leaf hierarchy the first pre-order match "x" is
`leafM1`, and `findModel` returns it. -/
theorem findModel_preorder_first_witness :
    findModel rootM "x" true true = Except.ok leafM1 :=
  (findModel_preorder_first rootM "x" true true).2.1 leafM1 rfl

/-- C7: when no node of `start`'s subtree carries the sought label,
`findModel` with no fallback flags fails with `NotFound`, and with
`returnBase` set it returns `start` itself. -/
theorem findModel_no_match_policy (start : MNode) (L : String)
    (h : ∀ m ∈ preorder start, L ∉ m.modelStrings) :
    findModel start L false false = Except.error ResolveError.notFound
    ∧ ∀ rl : Bool, findModel start L true rl = Except.ok start := by
  obtain ⟨ls, ch⟩ := start
  have hmem : L ∉ ls := by
    simpa [MNode.modelStrings] using h (MNode.mk ls ch) (self_mem_preorder _)
  cases ch with
  | nil =>
      exact ⟨by simp [findModel, MNode.modelStrings, MNode.children, hmem],
        fun rl => by simp [findModel, MNode.modelStrings, MNode.children, hmem]⟩
  | cons sub rest =>
      have htrav : traverseModel L (MNode.mk ls (sub :: rest)) = none := by
        rw [traverseModel_eq_firstLabelMatch, firstLabelMatch_eq_none]
        exact h
      exact ⟨by simp [findModel, MNode.modelStrings, MNode.children, hmem, htrav],
        fun rl => by simp [findModel, MNode.modelStrings, MNode.children, hmem, htrav]⟩

/-- C7 witness: the two-leaf hierarchy has no node labeled "z". -/
theorem findModel_no_match_policy_witness :
    findModel rootM "z" false false = Except.error ResolveError.notFound
    ∧ findModel rootM "z" true false = Except.ok rootM :=
  ⟨(findModel_no_match_policy rootM "z" (by decide)).1,
    (findModel_no_match_policy rootM "z" (by decide)).2 false⟩

/-- C2 counterexample: on `rootA`, which has a child and no node labeled
"Z", `returnLatest` alone still fails with `NotFound` while `returnBase`
alone returns `rootA` — the two flags are not interchangeable when `start`
has children. -/
theorem findModel_returnLatest_not_returnBase :
    findModel rootA "Z" false true = Except.error ResolveError.notFound
    ∧ findModel rootA "Z" true false = Except.ok rootA :=
  ⟨rfl, rfl⟩

/-- C2 amended: on a miss, `returnLatest` and `returnBase` agree only when
`start` has no children (each alone returns `start`); when `start` has
children, `returnBase` returns `start` but `returnLatest` alone leaves the
`NotFound` failure. -/
theorem findModel_returnLatest_children_asymmetry (start : MNode) (L : String)
    (h : ∀ m ∈ preorder start, L ∉ m.modelStrings) :
    (MNode.children start = [] →
        findModel start L false true = Except.ok start
        ∧ findModel start L true false = Except.ok start)
    ∧ (MNode.children start ≠ [] →
        findModel start L true false = Except.ok start
        ∧ findModel start L false true = Except.error ResolveError.notFound) := by
  obtain ⟨ls, ch⟩ := start
  have hmem : L ∉ ls := by
    simpa [MNode.modelStrings] using h (MNode.mk ls ch) (self_mem_preorder _)
  cases ch with
  | nil =>
      refine ⟨fun _ => ⟨?_, ?_⟩, fun hc => absurd rfl hc⟩
      · simp [findModel, MNode.modelStrings, MNode.children, hmem]
      · simp [findModel, MNode.modelStrings, MNode.children, hmem]
  | cons sub rest =>
      have htrav : traverseModel L (MNode.mk ls (sub :: rest)) = none := by
        rw [traverseModel_eq_firstLabelMatch, firstLabelMatch_eq_none]
        exact h
      refine ⟨fun hc => by simp [MNode.children] at hc, fun _ => ⟨?_, ?_⟩⟩
      · simp [findModel, MNode.modelStrings, MNode.children, hmem, htrav]
      · simp [findModel, MNode.modelStrings, MNode.children, hmem, htrav]

/-- C2 amended witness: on the childless `leafB` both flags alone return the
node itself for the sought "Z". -/
theorem findModel_returnLatest_children_asymmetry_witness :
    findModel leafB "Z" false true = Except.ok leafB
    ∧ findModel leafB "Z" true false = Except.ok leafB :=
  (findModel_returnLatest_children_asymmetry leafB "Z" (by decide)).1 rfl

/-- C8: when the first-child-only walk from `start` exhausts without a
match, `findVersion` with `returnLatest` returns the last node reached on
the followed path; otherwise `returnBase` returns `start`; with neither flag
and children present it fails with `NotFound`; and with no children either
flag alone returns `start`. -/
theorem findVersion_fallback_policy (start : VNode) (version : Option String)
    (h : ∀ m ∈ firstChildPath start, version ≠ m.versionString) :
    (∀ rb : Bool, findVersion start version rb true = Except.ok (pathEnd start))
    ∧ findVersion start version true false = Except.ok start
    ∧ (VNode.children start ≠ [] →
        findVersion start version false false = Except.error ResolveError.notFound)
    ∧ (VNode.children start = [] →
        findVersion start version true false = Except.ok start
        ∧ findVersion start version false true = Except.ok start) := by
  obtain ⟨vs, ch⟩ := start
  have hne : version ≠ vs := by
    simpa [VNode.versionString] using h (VNode.mk vs ch) (self_mem_firstChildPath _)
  cases ch with
  | nil =>
      refine ⟨fun rb => ?_, ?_, fun hc => by simp [VNode.children] at hc,
        fun _ => ⟨?_, ?_⟩⟩
      · simp [findVersion, VNode.versionString, VNode.children, pathEnd, hne]
      · simp [findVersion, VNode.versionString, VNode.children, hne]
      · simp [findVersion, VNode.versionString, VNode.children, hne]
      · simp [findVersion, VNode.versionString, VNode.children, hne]
  | cons sub rest =>
      have htravT := traverseVersion_no_match true version (VNode.mk vs (sub :: rest)) h
      have htravF := traverseVersion_no_match false version (VNode.mk vs (sub :: rest)) h
      simp at htravT htravF
      refine ⟨fun rb => ?_, ?_, fun _ => ?_, fun hc => by simp [VNode.children] at hc⟩
      · simp [findVersion, VNode.versionString, VNode.children, hne, htravT]
      · simp [findVersion, VNode.versionString, VNode.children, hne, htravF]
      · simp [findVersion, VNode.versionString, VNode.children, hne, htravF]

/-- C8 witness: on the linear lineage with no version "9.9", `returnLatest`
returns the deepest node `verC`. -/
theorem findVersion_fallback_policy_witness :
    findVersion verA (some "9.9") false true = Except.ok verC :=
  (findVersion_fallback_policy verA (some "9.9") (by decide)).1 false

/-- C4: `findVersion` descends only through first children: when every node
on the first-child path from `start` differs from the sought version, any
node it returns also differs from the sought version and lies on that path
(or the call fails with `NotFound`), even when a matching node exists
elsewhere in the subtree. -/
theorem findVersion_first_child_only (start : VNode) (version : Option String)
    (hpath : ∀ m ∈ firstChildPath start, version ≠ m.versionString)
    (hex : ∃ m ∈ subtreeNodes start, version = m.versionString) (rb rl : Bool) :
    (∀ n : VNode, findVersion start version rb rl = Except.ok n →
        version ≠ n.versionString)
    ∧ (findVersion start version rb rl = Except.error ResolveError.notFound
        ∨ ∃ n ∈ firstChildPath start, findVersion start version rb rl = Except.ok n) := by
  have key : findVersion start version rb rl = Except.error ResolveError.notFound
      ∨ ∃ n ∈ firstChildPath start, findVersion start version rb rl = Except.ok n := by
    obtain ⟨vs, ch⟩ := start
    have hne : version ≠ vs := by
      simpa [VNode.versionString] using
        hpath (VNode.mk vs ch) (self_mem_firstChildPath _)
    cases ch with
    | nil =>
        rcases rb with _ | _ <;> rcases rl with _ | _
        · left
          simp [findVersion, VNode.versionString, VNode.children, hne]
        · right
          exact ⟨_, self_mem_firstChildPath _,
            by simp [findVersion, VNode.versionString, VNode.children, hne]⟩
        · right
          exact ⟨_, self_mem_firstChildPath _,
            by simp [findVersion, VNode.versionString, VNode.children, hne]⟩
        · right
          exact ⟨_, self_mem_firstChildPath _,
            by simp [findVersion, VNode.versionString, VNode.children, hne]⟩
    | cons sub rest =>
        have htrav := traverseVersion_no_match rl version (VNode.mk vs (sub :: rest)) hpath
        rcases rl with _ | _
        · simp at htrav
          rcases rb with _ | _
          · left
            simp [findVersion, VNode.versionString, VNode.children, hne, htrav]
          · right
            exact ⟨_, self_mem_firstChildPath _,
              by simp [findVersion, VNode.versionString, VNode.children, hne, htrav]⟩
        · simp at htrav
          right
          exact ⟨pathEnd (VNode.mk vs (sub :: rest)),
            pathEnd_mem_firstChildPath _,
            by simp [findVersion, VNode.versionString, VNode.children, hne, htrav]⟩
  refine ⟨?_, key⟩
  intro n hok
  rcases key with herr | ⟨n', hn', hok'⟩
  · rw [herr] at hok
    exact absurd hok (by simp)
  · rw [hok'] at hok
    have : n' = n := by simpa using hok
    subst this
    exact hpath n' hn'

/-- C4 witness: version "2.0" exists in `branchedRoot`'s subtree only behind
the second child; with `returnLatest` the node actually returned is
`firstArm`, whose version is not "2.0". -/
theorem findVersion_first_child_only_witness :
    (some "2.0" : Option String) ≠ VNode.versionString firstArm :=
  (findVersion_first_child_only branchedRoot (some "2.0") (by decide) (by decide)
    false true).1 firstArm rfl

/-- C5: on the linear lineage `verA → verB → verC` with versions
"1.0", "2.0", "3.0", requesting version "2.0" from `verA` invokes the
constructor of the matching node `verB` with the supplied arguments. -/
theorem newFromVersion_linear_match {α : Type} (args : α) :
    newFromVersion verA args (some "2.0") false false = Except.ok ⟨verB, args⟩ :=
  rfl

/-- C6: on a linear lineage containing no node with the sought version,
`newFromVersion` with neither flag fails with `NotFound`, with
`returnDefault` builds the original `start`, and with `returnLast` alone
builds the deepest node of the lineage. -/
theorem newFromVersion_absent_policy {α : Type} (args : α) (start : VNode)
    (version : Option String) (hchain : isChain start = true)
    (habs : ∀ m ∈ firstChildPath start, m.versionString ≠ version) :
    newFromVersion start args version false false = Except.error ResolveError.notFound
    ∧ (∀ rl : Bool, newFromVersion start args version true rl = Except.ok ⟨start, args⟩)
    ∧ newFromVersion start args version false true = Except.ok ⟨pathEnd start, args⟩ := by
  obtain ⟨vs, ch⟩ := start
  have hne : vs ≠ version := by
    simpa [VNode.versionString] using
      habs (VNode.mk vs ch) (self_mem_firstChildPath _)
  cases ch with
  | nil =>
      refine ⟨?_, fun rl => ?_, ?_⟩
      · simp [newFromVersion, VNode.versionString, VNode.children, hne]
      · simp [newFromVersion, VNode.versionString, VNode.children, hne]
      · simp [newFromVersion, VNode.versionString, VNode.children, pathEnd, hne]
  | cons sub rest =>
      cases rest with
      | cons s2 r2 => simp [isChain] at hchain
      | nil =>
          have hch' : isChain sub = true := by simpa [isChain] using hchain
          have hsub : ∀ m ∈ firstChildPath sub, m.versionString ≠ version :=
            fun m hm => habs m (by
              simp only [firstChildPath]
              exact List.mem_cons_of_mem _ hm)
          refine ⟨?_, fun rl => ?_, ?_⟩
          · have hs := scanChain_no_match (VNode.mk vs [sub]) args version false false
              sub hch' hsub
            simp [newFromVersion, VNode.versionString, VNode.children, hne, hs]
          · have hs := scanChain_no_match (VNode.mk vs [sub]) args version true rl
              sub hch' hsub
            simp [newFromVersion, VNode.versionString, VNode.children, hne, hs]
          · have hs := scanChain_no_match (VNode.mk vs [sub]) args version false true
              sub hch' hsub
            simp [newFromVersion, VNode.versionString, VNode.children, pathEnd, hne, hs]

/-- C6 witness: version "9.9" is absent from the lineage `verA → verB →
verC`; `returnLast` builds the deepest node `verC`. -/
theorem newFromVersion_absent_policy_witness :
    newFromVersion verA () (some "9.9") false true = Except.ok ⟨verC, ()⟩ :=
  (newFromVersion_absent_policy () verA (some "9.9") rfl (by decide)).2.2

/-- C1 counterexample: `forkRoot`'s walk reaches `forkNode`, which has two
children, yet the call does not fail with `AmbiguousHierarchy`: with
`returnDefault` it succeeds, and with no flags it fails with `NotFound`
instead. -/
theorem newFromVersion_deep_branch_not_ambiguous :
    forkNode ∈ firstChildPath forkRoot
    ∧ VNode.children forkNode = [armX, armY]
    ∧ newFromVersion forkRoot () (some "9.9") true false = Except.ok ⟨forkRoot, ()⟩
    ∧ newFromVersion forkRoot () (some "9.9") false false
        = Except.error ResolveError.notFound := by
  refine ⟨?_, rfl, rfl, rfl⟩
  exact List.mem_cons_of_mem _ (List.mem_cons_self _ _)

/-- C1 amended: `newFromVersion` fails with `AmbiguousHierarchy` exactly
when the start node itself does not match the sought version and has two or
more children, and then no fallback flags suppress it; a branching node
encountered deeper in the walk is treated as the end of the chain instead
(`NotFound` or a fallback result). -/
theorem newFromVersion_ambiguous_iff {α : Type} (args : α) (start : VNode)
    (version : Option String) (rd rl : Bool) :
    newFromVersion start args version rd rl = Except.error ResolveError.ambiguousHierarchy
      ↔ VNode.versionString start ≠ version ∧ 2 ≤ (VNode.children start).length := by
  obtain ⟨vs, ch⟩ := start
  by_cases hv : vs = version
  · simp [newFromVersion, VNode.versionString, VNode.children, hv]
  · cases ch with
    | nil =>
        simp only [newFromVersion, VNode.versionString, VNode.children, hv, ite_false]
        constructor
        · intro hcon
          split_ifs at hcon
          simp_all
        · rintro ⟨-, hlen⟩
          simp at hlen
    | cons sub rest =>
        cases rest with
        | nil =>
            have hs := scanChain_ne_ambiguous (VNode.mk vs [sub]) args version rd rl sub
            simp [newFromVersion, VNode.versionString, VNode.children, hv, hs]
        | cons s2 r2 =>
            simp only [newFromVersion, VNode.versionString, VNode.children, hv]
            constructor
            · intro _
              refine ⟨hv, ?_⟩
              simp [List.length_cons]
            · intro _
              simp

/-- C9: `findPreviousVersion` climbs the ancestor chain and returns the
first ancestor whose version equals the sought label (`find?` over the
ancestor list); in the lineage `Ver1 → Ver2 → Ver3` it finds `Ver2` for
"2.0" from `Ver3`; and when no ancestor carries the sought label it returns
`none` — the function is total, so no failure is raised. -/
theorem findPreviousVersion_first_ancestor :
    (∀ (anc : List VClass) (s : String),
        findPreviousVersion anc s = anc.find? (fun a => decide (a.versionString = some s)))
    ∧ findPreviousVersion ver3Ancestors "2.0" = some clsVer2
    ∧ (∀ (anc : List VClass) (s : String),
        (∀ a ∈ anc, a.versionString ≠ some s) → findPreviousVersion anc s = none) := by
  have hclimb : ∀ (s : String) (l : List VClass),
      climb s l = l.find? (fun a => decide (a.versionString = some s)) := by
    intro s l
    induction l with
    | nil => rfl
    | cons base rest ih =>
        simp only [climb, List.find?]
        by_cases hb : base.versionString = some s
        · simp [hb]
        · simp [hb, ih]
  have hfind : ∀ (anc : List VClass) (s : String),
      findPreviousVersion anc s = anc.find? (fun a => decide (a.versionString = some s)) := by
    intro anc s
    cases anc with
    | nil => rfl
    | cons base rest => simpa [findPreviousVersion] using hclimb s (base :: rest)
  refine ⟨hfind, by rw [hfind]; rfl, ?_⟩
  intro anc s h
  rw [hfind, List.find?_eq_none]
  intro a ha
  simpa using h a ha

/-- C9 witness: no ancestor of `Ver3` carries version "9.9", so the climb
reports no result. -/
theorem findPreviousVersion_first_ancestor_witness :
    findPreviousVersion ver3Ancestors "9.9" = none :=
  findPreviousVersion_first_ancestor.2.2 ver3Ancestors "9.9" (by decide)

/-- C10: `newFromVersion` called with the version argument omitted (so the
default `None`) on a class whose `versionString` is unset (`None`) matches
immediately at that class and builds its instance with the supplied
arguments. -/
theorem newFromVersion_default_matches_unset {α : Type} (args : α) (n : VNode)
    (h : VNode.versionString n = none) :
    newFromVersionDefaults n args = Except.ok ⟨n, args⟩ := by
  simp [newFromVersionDefaults, newFromVersion, h]

/-- C10 witness: a concrete class with unset `versionString` built with unit
arguments. -/
theorem newFromVersion_default_matches_unset_witness :
    newFromVersionDefaults unsetNode () = Except.ok ⟨unsetNode, ()⟩ :=
  newFromVersion_default_matches_unset () unsetNode rfl
